import Mathlib

/-
Verification development for the pairwise alignment engine in
lingpy/algorithm/align.cpp.

Modelling conventions:
* Symbols are modelled as natural numbers (the engine compares them only by
  equality and through the similarity mapping).
* Prosodic characters are modelled as natural numbers (compared by equality).
* Machine floats are modelled as rationals; all score arithmetic is exact.
* The similarity dictionary is modelled as a total function (a lookup miss is
  fatal in the source and out of scope here).
* The per-call C arrays almA/almB are modelled as functions out of N that are
  functionally updated; matrices are modelled by structural row recursion so
  that every definition evaluates by kernel reduction.
-/

/-- Output alphabet of the assembler: an original symbol, the gap sign
written as a dash in the source, or the star marking positions outside a
local alignment region. -/
inductive OutSym where
  | sym : ℕ → OutSym
  | gap : OutSym
  | star : OutSym
deriving DecidableEq, Repr

/-- Input record of one kernel call, mirroring the C signature
(arrayA, lA, arrayB, lB, scorer, scale).  resA/resB are the restriction
vectors (called arrayA/arrayB in the source), S is the scorer matrix as a
total function and scale the gap-extension factor. -/
structure KIn where
  resA : List ℤ
  lA : ℕ
  resB : List ℤ
  lB : ℕ
  S : ℕ → ℕ → ℚ
  scale : ℚ

/-- Restriction predicate guarding gapA at cell (i,j) (1-based):
arrayB[i-1] < 0 and arrayA[j-1] > 0 and j != lA (align.cpp line 166). -/
def RA (K : KIn) (i j : ℕ) : Prop :=
  K.resB.getD (i-1) 0 < 0 ∧ K.resA.getD (j-1) 0 > 0 ∧ j ≠ K.lA

/-- Restriction predicate guarding gapB at cell (i,j) (1-based):
arrayA[j-1] < 0 and arrayB[i-1] > 0 and i != lB (align.cpp line 180). -/
def RB (K : KIn) (i j : ℕ) : Prop :=
  K.resA.getD (j-1) 0 < 0 ∧ K.resB.getD (i-1) 0 > 0 ∧ i ≠ K.lB

instance (K : KIn) (i j : ℕ) : Decidable (RA K i j) := by unfold RA; infer_instance

instance (K : KIn) (i j : ℕ) : Decidable (RB K i j) := by unfold RB; infer_instance

/-- Increment of one entry of a gap-count array (almX[k] = almX[k] + 1). -/
def bump (f : ℕ → ℤ) (k : ℕ) : ℕ → ℤ := Function.update f k (f k + 1)

/-- Sum of the entries 0..n of a gap-count array. -/
def sumTo (f : ℕ → ℤ) (n : ℕ) : ℤ := ∑ k ∈ Finset.range (n+1), f k

/-- Candidate score for a gap in A at cell (i,j), shared verbatim by the
_global, _local and _repeats kernels (align.cpp lines 165-177): the
restriction penalty, the traceback-3 extension scaling, or the plain gap
cost.  up is the cell (i-1,j). -/
def gapACand (K : KIn) (i j : ℕ) (up : ℚ × ℕ) : ℚ :=
  if RA K i j then up.1 - 1000000
  else if up.2 = 3 then up.1 + K.S i 0 * K.scale
  else up.1 + K.S i 0

/-- Candidate score for a gap in B at cell (i,j), shared verbatim by the
_global, _local and _repeats kernels (align.cpp lines 179-191).  left is the
cell (i,j-1). -/
def gapBCand (K : KIn) (i j : ℕ) (left : ℚ × ℕ) : ℚ :=
  if RB K i j then left.1 - 1000000
  else if left.2 = 2 then left.1 + K.S 0 j * K.scale
  else left.1 + K.S 0 j

/-- gapA candidate of the _overlap kernel (align.cpp lines 439-455): as in
_global but with the last-column override j == lA giving a free gap. -/
def overlapGapA (K : KIn) (i j : ℕ) (up : ℚ × ℕ) : ℚ :=
  if RA K i j then up.1 - 1000000
  else if j = K.lA then up.1
  else if up.2 = 3 then up.1 + K.S i 0 * K.scale
  else up.1 + K.S i 0

/-- gapB candidate of the _overlap kernel (align.cpp lines 457-473): as in
_global but with the last-row override i == lB giving a free gap. -/
def overlapGapB (K : KIn) (i j : ℕ) (left : ℚ × ℕ) : ℚ :=
  if RB K i j then left.1 - 1000000
  else if i = K.lB then left.1
  else if left.2 = 2 then left.1 + K.S 0 j * K.scale
  else left.1 + K.S 0 j

/-- Broken-diagonal score from above in _dialign (align.cpp lines 773-780). -/
def dialignScoreA (K : KIn) (i j : ℕ) (up : ℚ) : ℚ :=
  if RA K i j then up - 1000000 else up

/-- Broken-diagonal score from the left in _dialign (lines 781-788). -/
def dialignScoreB (K : KIn) (i j : ℕ) (left : ℚ) : ℚ :=
  if RB K i j then left - 1000000 else left

/-- Sum of the scorer entries along a diagonal of length k+1 ending at (i,j)
(the inner l loop of _dialign, align.cpp lines 758-761). -/
def diagSum (K : KIn) (i j k : ℕ) : ℚ := ∑ l ∈ Finset.range (k+1), K.S (i-l) (j-l)

/- Row-recursive matrices.  Cell (i,j) carries (matrix value, traceback).
Row 0 and column 0 are the initialization; the interior follows the mode
recurrence.  Structural recursion keeps everything kernel-computable. -/

/-- Row 0 of _global: cumulative scaled gap weights, traceback 2
(align.cpp lines 147-154). -/
def globalRow0 (K : KIn) : ℕ → ℚ × ℕ
  | 0 => (0, 1)
  | j+1 => ((globalRow0 K j).1 + K.S 0 (j+1) * K.scale, 2)

/-- Row i >= 1 of _global given row i-1 (align.cpp lines 155-213): column 0
is the cumulative scaled gap weight with traceback 3; the interior compares
gapA, match and gapB. -/
def globalRowStep (K : KIn) (prev : ℕ → ℚ × ℕ) (i : ℕ) : ℕ → ℚ × ℕ
  | 0 => ((prev 0).1 + K.S i 0 * K.scale, 3)
  | j+1 =>
      let up := prev (j+1)
      let left := globalRowStep K prev i j
      let diag := prev j
      let gapA := gapACand K i (j+1) up
      let gapB := gapBCand K i (j+1) left
      let mtch := diag.1 + K.S i (j+1)
      if gapA > mtch ∧ gapA ≥ gapB then (gapA, 3)
      else if mtch ≥ gapB then (mtch, 1)
      else (gapB, 2)

/-- Matrix of _global built row by row. -/
def globalRows (K : KIn) : ℕ → ℕ → ℚ × ℕ
  | 0 => globalRow0 K
  | i+1 => globalRowStep K (globalRows K i) (i+1)

/-- Cell (i,j) of the _global matrix and traceback. -/
def globalCell (K : KIn) (i j : ℕ) : ℚ × ℕ := globalRows K i j

/-- Row 0 of _overlap and _repeats: zero values, traceback 2
(align.cpp lines 421-433 and 549-561). -/
def zeroRow23 : ℕ → ℚ × ℕ
  | 0 => (0, 1)
  | _+1 => (0, 2)

/-- Row i >= 1 of _overlap given row i-1 (align.cpp lines 435-495). -/
def overlapRowStep (K : KIn) (prev : ℕ → ℚ × ℕ) (i : ℕ) : ℕ → ℚ × ℕ
  | 0 => (0, 3)
  | j+1 =>
      let up := prev (j+1)
      let left := overlapRowStep K prev i j
      let diag := prev j
      let gapA := overlapGapA K i (j+1) up
      let gapB := overlapGapB K i (j+1) left
      let mtch := diag.1 + K.S i (j+1)
      if gapA > mtch ∧ gapA ≥ gapB then (gapA, 3)
      else if mtch ≥ gapB then (mtch, 1)
      else (gapB, 2)

/-- Matrix of _overlap built row by row. -/
def overlapRows (K : KIn) : ℕ → ℕ → ℚ × ℕ
  | 0 => zeroRow23
  | i+1 => overlapRowStep K (overlapRows K i) (i+1)

/-- Cell (i,j) of the _overlap matrix and traceback. -/
def overlapCell (K : KIn) (i j : ℕ) : ℚ × ℕ := overlapRows K i j

/-- Row i >= 1 of _local given row i-1 (align.cpp lines 279-348).  The null
candidate is 0 and is set to the -1000000 sentinel when either restriction
fires (lines 283-313); the argmax prefers gapA, then match, then gapB, then
null, with the comparisons of lines 319-338. -/
def localRowStep (K : KIn) (prev : ℕ → ℚ × ℕ) (i : ℕ) : ℕ → ℚ × ℕ
  | 0 => (0, 0)
  | j+1 =>
      let up := prev (j+1)
      let left := localRowStep K prev i j
      let diag := prev j
      let nullv : ℚ := if RA K i (j+1) ∨ RB K i (j+1) then -1000000 else 0
      let gapA := gapACand K i (j+1) up
      let gapB := gapBCand K i (j+1) left
      let mtch := diag.1 + K.S i (j+1)
      if gapA ≥ mtch ∧ gapA ≥ gapB ∧ gapA ≥ nullv then (gapA, 3)
      else if mtch ≥ gapB ∧ mtch ≥ nullv then (mtch, 1)
      else if gapB > nullv then (gapB, 2)
      else (nullv, 0)

/-- Matrix of _local built row by row; row 0 and column 0 are zero with
traceback 0 (align.cpp lines 265-277). -/
def localRows (K : KIn) : ℕ → ℕ → ℚ × ℕ
  | 0 => fun _ => (0, 0)
  | i+1 => localRowStep K (localRows K i) (i+1)

/-- Cell (i,j) of the _local matrix and traceback. -/
def localCell (K : KIn) (i j : ℕ) : ℚ × ℕ := localRows K i j

/-- Row i >= 1 of _repeats given row i-1 (align.cpp lines 563-625).  In the
source every branch of both gap chains assigns null, so the value surviving
to the comparison is -1000000 exactly when the gapB restriction fired
(lines 585-599); the match comparison is strict (line 610). -/
def repeatsRowStep (K : KIn) (prev : ℕ → ℚ × ℕ) (i : ℕ) : ℕ → ℚ × ℕ
  | 0 => (0, 3)
  | j+1 =>
      let up := prev (j+1)
      let left := repeatsRowStep K prev i j
      let diag := prev j
      let nullv : ℚ := if RB K i (j+1) then -1000000 else 0
      let gapA := gapACand K i (j+1) up
      let gapB := gapBCand K i (j+1) left
      let mtch := diag.1 + K.S i (j+1)
      if gapA ≥ mtch ∧ gapA ≥ gapB ∧ gapA ≥ nullv then (gapA, 3)
      else if mtch > gapB ∧ mtch > nullv then (mtch, 1)
      else if gapB > nullv then (gapB, 2)
      else (nullv, 0)

/-- Matrix of _repeats built row by row. -/
def repeatsRows (K : KIn) : ℕ → ℕ → ℚ × ℕ
  | 0 => zeroRow23
  | i+1 => repeatsRowStep K (repeatsRows K i) (i+1)

/-- Cell (i,j) of the _repeats matrix and traceback. -/
def repeatsCell (K : KIn) (i j : ℕ) : ℚ × ℕ := repeatsRows K i j

/-- Row i >= 1 of the _dialign matrix given the matrix Mprev of all previous
rows (align.cpp lines 735-812): the best diagonal ending at (i,j) over
k < min(i,j) starting from (0,1), then the broken-diagonal scores, then the
three-way choice of lines 791-808. -/
def dialignRowD (K : KIn) (Mprev : ℕ → ℕ → ℚ) (i : ℕ) : ℕ → ℚ
  | 0 => 0
  | j+1 =>
      let best := (List.range (min i (j+1))).foldl
        (fun old k =>
          let ns := Mprev (i-k-1) (j-k) + diagSum K i (j+1) k
          if ns > old.1 then (ns, k+1) else old)
        ((0:ℚ), 1)
      let scoreA := dialignScoreA K i (j+1) (Mprev (i-1) (j+1))
      let scoreB := dialignScoreB K i (j+1) (dialignRowD K Mprev i j)
      if scoreA ≥ best.1 ∧ scoreA > scoreB then scoreA
      else if best.1 > scoreB then best.1
      else scoreB

/-- Matrix of _dialign built row by row: row 0 and column 0 are zero
(lines 719-731); the function at stage i answers queries for every row up
to i. -/
def dialignRows (K : KIn) : ℕ → ℕ → ℕ → ℚ
  | 0 => fun _ _ => 0
  | i+1 => fun a => if a = i+1 then dialignRowD K (dialignRows K i) (i+1) else dialignRows K i a

/-- Value of cell (i,j) of the _dialign matrix. -/
def dialignM (K : KIn) (i j : ℕ) : ℚ := dialignRows K i i j

/-- Best (score, length) pair over the diagonals ending at (i,j) in _dialign
(align.cpp lines 750-769), expressed through the finished matrix. -/
def dialignBest (K : KIn) (i j : ℕ) : ℚ × ℕ :=
  (List.range (min i j)).foldl
    (fun old k =>
      let ns := dialignM K (i-k-1) (j-k-1) + diagSum K i j k
      if ns > old.1 then (ns, k+1) else old)
    ((0:ℚ), 1)

/-- Queries to a row stage below the stage index fall through to the row's
own stage: the staged matrix is stable. -/
theorem dialignRows_stable (K : KIn) : ∀ i a, a ≤ i → dialignRows K i a = dialignRows K a a := by
  intro i
  induction i with
  | zero =>
      intro a ha
      have : a = 0 := by omega
      subst this; rfl
  | succ i ih =>
      intro a ha
      by_cases h : a = i + 1
      · subst h; rfl
      · show (if a = i+1 then dialignRowD K (dialignRows K i) (i+1) else dialignRows K i a)
            = dialignRows K a a
        rw [if_neg h]
        exact ih a (by omega)

/-- Consistency of the staged _dialign matrix: its interior cells satisfy
the recurrence expressed through dialignBest and the broken-diagonal scores,
exactly the values the traceback pass recomputes. -/
theorem dialign_recurrence (K : KIn) (i j : ℕ) (hi : 1 ≤ i) (hj : 1 ≤ j) :
    dialignM K i j =
      (let best := dialignBest K i j
       let scoreA := dialignScoreA K i j (dialignM K (i-1) j)
       let scoreB := dialignScoreB K i j (dialignM K i (j-1))
       if scoreA ≥ best.1 ∧ scoreA > scoreB then scoreA
       else if best.1 > scoreB then best.1
       else scoreB) := by
  obtain ⟨b, rfl⟩ : ∃ b, i = b + 1 := ⟨i - 1, by omega⟩
  obtain ⟨a, rfl⟩ : ∃ a, j = a + 1 := ⟨j - 1, by omega⟩
  have hM : ∀ x, dialignM K (b+1) x = dialignRowD K (dialignRows K b) (b+1) x := by
    intro x
    show (if b+1 = b+1 then dialignRowD K (dialignRows K b) (b+1)
        else dialignRows K b (b+1)) x = dialignRowD K (dialignRows K b) (b+1) x
    rw [if_pos rfl]
  have hbest : (List.range (min (b+1) (a+1))).foldl
      (fun old k =>
        let ns := dialignRows K b (b+1-k-1) (a-k) + diagSum K (b+1) (a+1) k
        if ns > old.1 then (ns, k+1) else old)
      ((0:ℚ), 1) = dialignBest K (b+1) (a+1) := by
    unfold dialignBest
    apply List.foldl_ext
    intro old k hk
    have hkr := List.mem_range.mp hk
    have h2 : b + 1 - k - 1 = b - k := by omega
    have h3 : (a+1) - k - 1 = a - k := by omega
    have h1 : dialignRows K b (b-k) (a-k) = dialignM K (b-k) (a-k) := by
      unfold dialignM
      rw [dialignRows_stable K b (b-k) (by omega)]
    rw [h2, h3, h1]
  rw [hM (a+1)]
  simp only [dialignRowD]
  rw [hbest]
  simp only [Nat.add_sub_cancel]
  rw [← hM a]
  rfl
def update2 (tb : ℕ → ℕ → ℕ) (i j v : ℕ) : ℕ → ℕ → ℕ :=
  fun a b => if a = i ∧ b = j then v else tb a b

/-- Write traceback 1 along a diagonal of the given length ending at (i,j)
(align.cpp lines 799-802). -/
def diagWrite (tb : ℕ → ℕ → ℕ) (i j len : ℕ) : ℕ → ℕ → ℕ :=
  (List.range len).foldl (fun t k => update2 t (i-k) (j-k) 1) tb

/-- Initial traceback of _dialign: (0,0) = 1, row 0 = 2, column 0 = 3
(align.cpp lines 719-731); the interior is 0 until written (the source
leaves it uninitialized, but every interior cell is written during the
fill). -/
def tb0 : ℕ → ℕ → ℕ := fun i j =>
  if i = 0 ∧ j = 0 then 1 else if i = 0 then 2 else if j = 0 then 3 else 0

/-- Traceback writes performed when the _dialign fill visits cell p
(align.cpp lines 790-808): 3 or 2 at the cell itself, or 1 along the whole
winning diagonal. -/
def dialignStep (K : KIn) (tb : ℕ → ℕ → ℕ) (p : ℕ × ℕ) : ℕ → ℕ → ℕ :=
  let i := p.1
  let j := p.2
  let best := dialignBest K i j
  let scoreA := dialignScoreA K i j (dialignM K (i-1) j)
  let scoreB := dialignScoreB K i j (dialignM K i (j-1))
  if scoreA ≥ best.1 ∧ scoreA > scoreB then update2 tb i j 3
  else if best.1 > scoreB then diagWrite tb i j best.2
  else update2 tb i j 2

/-- Interior cells (i,j), 1 <= i <= lB, 1 <= j <= lA, in fill scan order
(row-major, i outer). -/
def cellsOf (lB lA : ℕ) : List (ℕ × ℕ) :=
  (List.range lB).flatMap fun i => (List.range lA).map fun j => (i+1, j+1)

/-- Finished traceback matrix of _dialign: the fill scan applied to the
initialized traceback. -/
def dialignTB (K : KIn) : ℕ → ℕ → ℕ :=
  (cellsOf K.lB K.lA).foldl (dialignStep K) tb0

/-- Traceback walk shared by _global, _overlap and _dialign (align.cpp
lines 218-238): from (i,j) while i > 0 or j > 0, traceback 3 bumps almA[j]
and moves up, 1 moves diagonally, anything else bumps almB[i] and moves
left.  Fuel-indexed; i+j fuel suffices. -/
def gwalk (tb : ℕ → ℕ → ℕ) : ℕ → ℕ → ℕ → (ℕ → ℤ) → (ℕ → ℤ) → (ℕ → ℤ) × (ℕ → ℤ)
  | 0, _, _, aA, aB => (aA, aB)
  | fuel+1, i, j, aA, aB =>
      if i = 0 ∧ j = 0 then (aA, aB)
      else if tb i j = 3 then gwalk tb fuel (i-1) j (bump aA j) aB
      else if tb i j = 1 then gwalk tb fuel (i-1) (j-1) aA aB
      else gwalk tb fuel i (j-1) aA (bump aB i)

/-- Traceback walk of _repeats (align.cpp lines 630-682).  The branch for a
0-cell transcribes the source scan loops: the statement
if(traceback[l][k] == 1); is a no-op, so the scan breaks at its first
iteration with k = j-1 and l = i-1; hence skip = 2, skipA = skipB = 1, one
gap is recorded on each side (almA[j-1] and almB[i]), the walk jumps to
(i-1,j-1) and the matrix value there is added to sim. -/
def rwalk (tb : ℕ → ℕ → ℕ) (M : ℕ → ℕ → ℚ) :
    ℕ → ℕ → ℕ → (ℕ → ℤ) → (ℕ → ℤ) → ℚ → (ℕ → ℤ) × (ℕ → ℤ) × ℚ
  | 0, _, _, aA, aB, s => (aA, aB, s)
  | fuel+1, i, j, aA, aB, s =>
      if i = 0 ∧ j = 0 then (aA, aB, s)
      else if tb i j = 3 then rwalk tb M fuel (i-1) j (bump aA j) aB s
      else if tb i j = 1 then rwalk tb M fuel (i-1) (j-1) aA aB s
      else if tb i j = 2 then rwalk tb M fuel i (j-1) aA (bump aB i) s
      else rwalk tb M fuel (i-1) (j-1) (bump aA (j-1)) (bump aB i) (s + M (i-1) (j-1))

/-- Traceback walk of _local (align.cpp lines 367-388): it stops at the
first cell whose traceback is not 3, 1 or 2 and reports where it stopped. -/
def lwalk (tb : ℕ → ℕ → ℕ) :
    ℕ → ℕ → ℕ → (ℕ → ℤ) → (ℕ → ℤ) → ℕ × ℕ × (ℕ → ℤ) × (ℕ → ℤ)
  | 0, i, j, aA, aB => (i, j, aA, aB)
  | fuel+1, i, j, aA, aB =>
      if tb i j = 3 then lwalk tb fuel (i-1) j (bump aA j) aB
      else if tb i j = 1 then lwalk tb fuel (i-1) (j-1) aA aB
      else if tb i j = 2 then lwalk tb fuel i (j-1) aA (bump aB i)
      else (i, j, aA, aB)

/-- Running maximum of the _local fill (align.cpp lines 340-346): scanning
the interior cells in fill order, record (value, position) whenever the cell
value is >= the current maximum, starting from max_score = 0 with imax/jmax
unassigned (modelled as none). -/
def localBest (K : KIn) : ℚ × Option (ℕ × ℕ) :=
  (cellsOf K.lB K.lA).foldl
    (fun st p => if (localCell K p.1 p.2).1 ≥ st.1 then ((localCell K p.1 p.2).1, some p) else st)
    (0, none)

/-- Kernel _global (align.cpp lines 129-240): fill, sim = matrix[lB][lA],
then the traceback walk from (lB,lA). -/
def _global (K : KIn) : ℚ × (ℕ → ℤ) × (ℕ → ℤ) :=
  let r := gwalk (fun i j => (globalCell K i j).2) (K.lB + K.lA) K.lB K.lA
    (fun _ => 0) (fun _ => 0)
  ((globalCell K K.lB K.lA).1, r.1, r.2)

/-- Kernel _overlap (align.cpp lines 403-522): as _global with the overlap
matrix. -/
def _overlap (K : KIn) : ℚ × (ℕ → ℤ) × (ℕ → ℤ) :=
  let r := gwalk (fun i j => (overlapCell K i j).2) (K.lB + K.lA) K.lB K.lA
    (fun _ => 0) (fun _ => 0)
  ((overlapCell K K.lB K.lA).1, r.1, r.2)

/-- Kernel _dialign (align.cpp lines 687-843): fill and traceback writes,
sim = matrix[lB][lA], walk from (lB,lA). -/
def _dialign (K : KIn) : ℚ × (ℕ → ℤ) × (ℕ → ℤ) :=
  let r := gwalk (dialignTB K) (K.lB + K.lA) K.lB K.lA (fun _ => 0) (fun _ => 0)
  (dialignM K K.lB K.lA, r.1, r.2)

/-- Kernel _repeats (align.cpp lines 524-685): sim starts at matrix[lB][lA]
and the repeat-recovering walk may add the values of jumped-to cells. -/
def _repeats (K : KIn) : ℚ × (ℕ → ℤ) × (ℕ → ℤ) :=
  let r := rwalk (fun i j => (repeatsCell K i j).2) (fun i j => (repeatsCell K i j).1)
    (K.lB + K.lA) K.lB K.lA (fun _ => 0) (fun _ => 0) (repeatsCell K K.lB K.lA).1
  (r.2.2, r.1, r.2.1)

/-- Kernel _local (align.cpp lines 242-401): fill with running maximum,
sim = matrix[imax][jmax], -1 marks for the trailing region, walk until a
0-cell, then -1 marks for the leading region.  The source leaves imax/jmax
uninitialized when no cell value reaches 0; the model defaults that
(never-reached for nonempty inputs) case to (0,0). -/
def _local (K : KIn) : ℚ × (ℕ → ℤ) × (ℕ → ℤ) :=
  let tb := fun i j => (localCell K i j).2
  let best := (localBest K).2.getD (0, 0)
  let imax := best.1
  let jmax := best.2
  let aA0 : ℕ → ℤ := fun k => if jmax ≤ k ∧ k < K.lA then -1 else 0
  let aB0 : ℕ → ℤ := fun k => if imax ≤ k ∧ k < K.lB then -1 else 0
  let r := lwalk tb (K.lB + K.lA) imax jmax aA0 aB0
  let aA := fun k => if k < r.2.1 then -1 else r.2.2.1 k
  let aB := fun k => if k < r.1 then -1 else r.2.2.2 k
  ((localCell K imax jmax).1, aA, aB)

/-- Scorer construction shared by the drivers (align.cpp lines 896-940 in
align_pairwise): row 0 holds the gap weights of A, column 0 those of B, the
interior holds lookup(A[j-1], B[i-1]) with the prosodic bonus
(1 + sonority_factor) when the prosodic characters agree.  The drivers
differ only in the key order of the dictionary lookup, passed here as the
lookup argument. -/
def mkScorer (A B : List ℕ) (wA wB : List ℚ) (pA pB : List ℕ)
    (lookup : ℕ → ℕ → ℚ) (sf : ℚ) : ℕ → ℕ → ℚ :=
  fun i j =>
    if i = 0 ∧ j = 0 then 0
    else if i = 0 then wA.getD (j-1) 0
    else if j = 0 then wB.getD (i-1) 0
    else
      let s := lookup (A.getD (j-1) 0) (B.getD (i-1) 0)
      if pA.getD (j-1) 0 = pB.getD (i-1) 0 then s * (1 + sf) else s

/-- Assembly of one output sequence (align.cpp lines 981-994): scanning the
positions from high to low, insert almX[k] gap signs before position k when
almX[k] > 0 and replace the symbol by a star when almX[k] < 0.  Because the
source scans downwards, the result is this position-wise concatenation; the
index argument tracks the original position. -/
def assembleFrom (alm : ℕ → ℤ) : ℕ → List ℕ → List OutSym
  | k, [] => List.replicate (alm k).toNat OutSym.gap
  | k, a :: rest =>
      List.replicate (alm k).toNat OutSym.gap
        ++ (if alm k < 0 then OutSym.star else OutSym.sym a) :: assembleFrom alm (k+1) rest

/-- Assembled output sequence for one side. -/
def assemble (A : List ℕ) (alm : ℕ → ℤ) : List OutSym := assembleFrom alm 0 A

/-- Shared per-pair driver body (scorer construction, kernel call, assembly);
the three batch drivers instantiate it with their kernel and their
similarity lookup order. -/
def alignCore (kern : KIn → ℚ × (ℕ → ℤ) × (ℕ → ℤ))
    (A B : List ℕ) (wA wB : List ℚ) (rA rB : List ℤ) (pA pB : List ℕ)
    (lookup : ℕ → ℕ → ℚ) (scale sf : ℚ) :
    List OutSym × List OutSym × ℚ :=
  let S := mkScorer A B wA wB pA pB lookup sf
  let r := kern ⟨rA, A.length, rB, B.length, S, scale⟩
  (assemble A r.2.1, assemble B r.2.2, r.1)

/-- Mode dispatch (align.cpp lines 875-894): the if chain over the mode
string selects a kernel; no other mode assigns one (the source then calls
an uninitialized function pointer, which is undefined behavior, modelled
here as none). -/
def modeToKernel (mode : String) : Option (KIn → ℚ × (ℕ → ℤ) × (ℕ → ℤ)) :=
  if mode = "global" then some _global
  else if mode = "local" then some _local
  else if mode = "repeats" then some _repeats
  else if mode = "overlap" then some _overlap
  else if mode = "dialign" then some _dialign
  else none

/-- Single-pair driver align_pairwise (align.cpp lines 845-1014); the
similarity dictionary is keyed (seqA[l-1], seqB[k-1]) (line 919). -/
def align_pairwise (A B : List ℕ) (wA wB : List ℚ) (rA rB : List ℤ)
    (pA pB : List ℕ) (σ : ℕ → ℕ → ℚ) (scale sf : ℚ) (mode : String) :
    Option (List OutSym × List OutSym × ℚ) :=
  (modeToKernel mode).map fun kern =>
    alignCore kern A B wA wB rA rB pA pB (fun a b => σ a b) scale sf

/-- All-pairs driver align_sequences_pairwise (align.cpp lines 1016-1230):
for every i < j in lexicographic order the same per-pair flow, but the
similarity dictionary is keyed (seqB[k-1], seqA[l-1]) (line 1111). -/
def align_sequences_pairwise (seqs : List (List ℕ)) (weights : List (List ℚ))
    (restrictions : List (List ℤ)) (prosodics : List (List ℕ))
    (σ : ℕ → ℕ → ℚ) (scale sf : ℚ) (mode : String) :
    Option (List (List OutSym × List OutSym × ℚ)) :=
  (modeToKernel mode).map fun kern =>
    (List.range seqs.length).flatMap fun i =>
      (List.range seqs.length).filterMap fun j =>
        if i < j then
          some (alignCore kern (seqs.getD i []) (seqs.getD j [])
            (weights.getD i []) (weights.getD j [])
            (restrictions.getD i []) (restrictions.getD j [])
            (prosodics.getD i []) (prosodics.getD j [])
            (fun a b => σ b a) scale sf)
        else none

/-- Explicit-pairs driver align_sequence_pairs (align.cpp lines 1232-1438):
one per-pair flow per element, dictionary keyed (seqA[l-1], seqB[k-1])
(line 1322). -/
def align_sequence_pairs (seqs : List (List ℕ × List ℕ))
    (weights : List (List ℚ × List ℚ)) (restrictions : List (List ℤ × List ℤ))
    (prosodics : List (List ℕ × List ℕ))
    (σ : ℕ → ℕ → ℚ) (scale sf : ℚ) (mode : String) :
    Option (List (List OutSym × List OutSym × ℚ)) :=
  (modeToKernel mode).map fun kern =>
    (List.range seqs.length).map fun i =>
      alignCore kern (seqs.getD i default).1 (seqs.getD i default).2
        (weights.getD i default).1 (weights.getD i default).2
        (restrictions.getD i default).1 (restrictions.getD i default).2
        (prosodics.getD i default).1 (prosodics.getD i default).2
        (fun a b => σ a b) scale sf

/-- Number of non-gap entries before output position k; a non-gap output
position with originIndex out k = j carries the symbol that originated from
position j of the input sequence (stars replace original symbols in place,
so they count as originating positions too). -/
def originIndex (out : List OutSym) (k : ℕ) : ℕ :=
  ((out.take k).filter (fun s => s ≠ OutSym.gap)).length

/-- Statement of the restriction claim for one input of align_pairwise: a
negative restriction at position j of A together with a positive restriction
at a non-final position i of B forbids any output gap in B opposite the
output position originating from j of A, and symmetrically. -/
def restrictionHonored (A B : List ℕ) (wA wB : List ℚ) (rA rB : List ℤ)
    (pA pB : List ℕ) (σ : ℕ → ℕ → ℚ) (scale sf : ℚ) (mode : String) : Prop :=
  ∀ out, align_pairwise A B wA wB rA rB pA pB σ scale sf mode = some out →
    (∀ j i k, rA.getD j 0 < 0 → rB.getD i 0 > 0 → i ≠ B.length - 1 →
      out.2.1.getD k OutSym.gap = OutSym.gap →
      ¬(out.1.getD k OutSym.gap ≠ OutSym.gap ∧ originIndex out.1 k = j)) ∧
    (∀ j i k, rB.getD j 0 < 0 → rA.getD i 0 > 0 → i ≠ A.length - 1 →
      out.1.getD k OutSym.gap = OutSym.gap →
      ¬(out.2.1.getD k OutSym.gap ≠ OutSym.gap ∧ originIndex out.2.1 k = j))

/-- Row 0 of the edit_dist matrix: matrix[0][j] = j (align.cpp line 1756). -/
def levRow0 : ℕ → ℕ := fun j => j

/-- Row i >= 1 of the edit_dist matrix given row i-1 (align.cpp lines
1770-1802): column 0 is i, the interior takes the minimum of gapA, match
with the unit penalty, and gapB, through the comparison chain of lines
1787-1798. -/
def levRowStep (A B : List ℕ) (prev : ℕ → ℕ) (i : ℕ) : ℕ → ℕ
  | 0 => i
  | j+1 =>
      let pen := if A.getD j 0 = B.getD (i-1) 0 then 0 else 1
      let gA := prev (j+1) + 1
      let mt := prev j + pen
      let gB := levRowStep A B prev i j + 1
      if gA ≤ mt ∧ gA ≤ gB then gA
      else if mt < gB then mt
      else gB

/-- Matrix of edit_dist built row by row. -/
def levRows (A B : List ℕ) : ℕ → ℕ → ℕ
  | 0 => levRow0
  | i+1 => levRowStep A B (levRows A B i) (i+1)

/-- Entry (i,j) of the edit_dist matrix: the Levenshtein distance of the
first j symbols of A and the first i symbols of B. -/
def levM (A B : List ℕ) (i j : ℕ) : ℕ := levRows A B i j

/-- Normalized edit distance (align.cpp lines 1734-1806):
matrix[n][m] / max(n,m) with n = |B| and m = |A|. -/
def edit_dist (A B : List ℕ) : ℚ :=
  (levM A B B.length A.length : ℚ) / (max B.length A.length : ℚ)

/-! Generic helper lemmas. -/

/-- Invariant preservation along a left fold. -/
theorem foldl_inv {α β : Type} (f : β → α → β) (P : β → Prop) :
    ∀ (l : List α) (s : β), P s → (∀ s a, a ∈ l → P s → P (f s a)) → P (l.foldl f s) := by
  intro l
  induction l with
  | nil => intro s hs _; simpa using hs
  | cons a t ih =>
      intro s hs hstep
      simp only [List.foldl_cons]
      exact ih _ (hstep s a (by simp) hs) (fun s b hb => hstep s b (by simp [hb]))

/-- Bumping an entry raises the array pointwise. -/
theorem bump_le (f : ℕ → ℤ) (j k : ℕ) : f k ≤ bump f j k := by
  unfold bump
  rw [Function.update_apply]
  split_ifs with h
  · subst h; omega
  · exact le_refl _

/-- Bumping an entry inside the summation range adds one to the sum. -/
theorem sumTo_bump (f : ℕ → ℤ) {j n : ℕ} (h : j ≤ n) : sumTo (bump f j) n = sumTo f n + 1 := by
  unfold sumTo bump
  have hj : j ∈ Finset.range (n+1) := Finset.mem_range.mpr (by omega)
  rw [Finset.sum_update_of_mem hj, ← Finset.sum_erase_add _ _ hj, Finset.erase_eq]
  ring

/-- Sum of the zero array. -/
theorem sumTo_zero (n : ℕ) : sumTo (fun _ => 0) n = 0 := by simp [sumTo]

/-- Counting invariant of the shared traceback walk: provided row 0 carries
traceback 2 and column 0 carries traceback 3 inside the walked rectangle,
the walk from (i,j) raises the almA sum and the almB sum so that their
difference changes exactly by i - j, and the arrays only grow. -/
theorem gwalk_spec (tb : ℕ → ℕ → ℕ) (m n : ℕ)
    (hrow : ∀ j, 1 ≤ j → j ≤ n → tb 0 j = 2)
    (hcol : ∀ i, 1 ≤ i → i ≤ m → tb i 0 = 3) :
    ∀ fuel i j aA aB, i + j ≤ fuel → i ≤ m → j ≤ n →
      sumTo (gwalk tb fuel i j aA aB).1 n - sumTo (gwalk tb fuel i j aA aB).2 m
          = sumTo aA n - sumTo aB m + (i:ℤ) - (j:ℤ)
        ∧ (∀ k, aA k ≤ (gwalk tb fuel i j aA aB).1 k)
        ∧ (∀ k, aB k ≤ (gwalk tb fuel i j aA aB).2 k) := by
  intro fuel
  induction fuel with
  | zero =>
      intro i j aA aB hf _ _
      have hi0 : i = 0 := by omega
      have hj0 : j = 0 := by omega
      subst hi0; subst hj0
      simp [gwalk]
  | succ f ih =>
      intro i j aA aB hf hi hj
      simp only [gwalk]
      by_cases h0 : i = 0 ∧ j = 0
      · rw [if_pos h0]
        obtain ⟨rfl, rfl⟩ := h0
        simp
      · rw [if_neg h0]
        by_cases h3 : tb i j = 3
        · have hi1 : 1 ≤ i := by
            rcases Nat.eq_zero_or_pos i with h | h
            · subst h
              have hj1 : 1 ≤ j := by omega
              rw [hrow j hj1 hj] at h3; omega
            · exact h
          rw [if_pos h3]
          obtain ⟨e, mA, mB⟩ := ih (i-1) j (bump aA j) aB (by omega) (by omega) hj
          refine ⟨?_, ?_, ?_⟩
          · rw [e, sumTo_bump aA hj]
            have : ((i-1 : ℕ) : ℤ) = (i:ℤ) - 1 := by omega
            rw [this]; ring
          · intro k; exact le_trans (bump_le aA j k) (mA k)
          · exact mB
        · rw [if_neg h3]
          by_cases h1 : tb i j = 1
          · have hi1 : 1 ≤ i := by
              rcases Nat.eq_zero_or_pos i with h | h
              · subst h
                have hj1 : 1 ≤ j := by omega
                rw [hrow j hj1 hj] at h1; omega
              · exact h
            have hj1 : 1 ≤ j := by
              rcases Nat.eq_zero_or_pos j with h | h
              · subst h
                rw [hcol i hi1 hi] at h1; omega
              · exact h
            rw [if_pos h1]
            obtain ⟨e, mA, mB⟩ := ih (i-1) (j-1) aA aB (by omega) (by omega) (by omega)
            refine ⟨?_, mA, mB⟩
            rw [e]
            have e1 : ((i-1 : ℕ) : ℤ) = (i:ℤ) - 1 := by omega
            have e2 : ((j-1 : ℕ) : ℤ) = (j:ℤ) - 1 := by omega
            rw [e1, e2]; ring
          · have hj1 : 1 ≤ j := by
              rcases Nat.eq_zero_or_pos j with h | h
              · subst h
                have hi1 : 1 ≤ i := by omega
                rw [hcol i hi1 hi] at h3; omega
              · exact h
            rw [if_neg h1]
            obtain ⟨e, mA, mB⟩ := ih i (j-1) aA (bump aB i) (by omega) hi (by omega)
            refine ⟨?_, mA, ?_⟩
            · rw [e, sumTo_bump aB hi]
              have e2 : ((j-1 : ℕ) : ℤ) = (j:ℤ) - 1 := by omega
              rw [e2]; ring
            · intro k; exact le_trans (bump_le aB i k) (mB k)

/-- Counting invariant of the _repeats walk, including its 0-cell branch
which bumps both sides once and moves diagonally. -/
theorem rwalk_spec (tb : ℕ → ℕ → ℕ) (M : ℕ → ℕ → ℚ) (m n : ℕ)
    (hrow : ∀ j, 1 ≤ j → j ≤ n → tb 0 j = 2)
    (hcol : ∀ i, 1 ≤ i → i ≤ m → tb i 0 = 3) :
    ∀ fuel i j aA aB s, i + j ≤ fuel → i ≤ m → j ≤ n →
      sumTo (rwalk tb M fuel i j aA aB s).1 n - sumTo (rwalk tb M fuel i j aA aB s).2.1 m
          = sumTo aA n - sumTo aB m + (i:ℤ) - (j:ℤ)
        ∧ (∀ k, aA k ≤ (rwalk tb M fuel i j aA aB s).1 k)
        ∧ (∀ k, aB k ≤ (rwalk tb M fuel i j aA aB s).2.1 k) := by
  intro fuel
  induction fuel with
  | zero =>
      intro i j aA aB s hf _ _
      have hi0 : i = 0 := by omega
      have hj0 : j = 0 := by omega
      subst hi0; subst hj0
      simp [rwalk]
  | succ f ih =>
      intro i j aA aB s hf hi hj
      simp only [rwalk]
      by_cases h0 : i = 0 ∧ j = 0
      · rw [if_pos h0]
        obtain ⟨rfl, rfl⟩ := h0
        simp
      · rw [if_neg h0]
        by_cases h3 : tb i j = 3
        · have hi1 : 1 ≤ i := by
            rcases Nat.eq_zero_or_pos i with h | h
            · subst h
              have hj1 : 1 ≤ j := by omega
              rw [hrow j hj1 hj] at h3; omega
            · exact h
          rw [if_pos h3]
          obtain ⟨e, mA, mB⟩ := ih (i-1) j (bump aA j) aB s (by omega) (by omega) hj
          refine ⟨?_, ?_, mB⟩
          · rw [e, sumTo_bump aA hj]
            have : ((i-1 : ℕ) : ℤ) = (i:ℤ) - 1 := by omega
            rw [this]; ring
          · intro k; exact le_trans (bump_le aA j k) (mA k)
        · rw [if_neg h3]
          by_cases h1 : tb i j = 1
          · have hi1 : 1 ≤ i := by
              rcases Nat.eq_zero_or_pos i with h | h
              · subst h
                have hj1 : 1 ≤ j := by omega
                rw [hrow j hj1 hj] at h1; omega
              · exact h
            have hj1 : 1 ≤ j := by
              rcases Nat.eq_zero_or_pos j with h | h
              · subst h
                rw [hcol i hi1 hi] at h1; omega
              · exact h
            rw [if_pos h1]
            obtain ⟨e, mA, mB⟩ := ih (i-1) (j-1) aA aB s (by omega) (by omega) (by omega)
            refine ⟨?_, mA, mB⟩
            rw [e]
            have e1 : ((i-1 : ℕ) : ℤ) = (i:ℤ) - 1 := by omega
            have e2 : ((j-1 : ℕ) : ℤ) = (j:ℤ) - 1 := by omega
            rw [e1, e2]; ring
          · rw [if_neg h1]
            by_cases h2 : tb i j = 2
            · have hj1 : 1 ≤ j := by
                rcases Nat.eq_zero_or_pos j with h | h
                · subst h
                  have hi1 : 1 ≤ i := by omega
                  rw [hcol i hi1 hi] at h2; omega
                · exact h
              rw [if_pos h2]
              obtain ⟨e, mA, mB⟩ := ih i (j-1) aA (bump aB i) s (by omega) hi (by omega)
              refine ⟨?_, mA, ?_⟩
              · rw [e, sumTo_bump aB hi]
                have e2 : ((j-1 : ℕ) : ℤ) = (j:ℤ) - 1 := by omega
                rw [e2]; ring
              · intro k; exact le_trans (bump_le aB i k) (mB k)
            · have hi1 : 1 ≤ i := by
                rcases Nat.eq_zero_or_pos i with h | h
                · subst h
                  have hj1 : 1 ≤ j := by omega
                  rw [hrow j hj1 hj] at h2; omega
                · exact h
              have hj1 : 1 ≤ j := by
                rcases Nat.eq_zero_or_pos j with h | h
                · subst h
                  rw [hcol i hi1 hi] at h3; omega
                · exact h
              rw [if_neg h2]
              obtain ⟨e, mA, mB⟩ :=
                ih (i-1) (j-1) (bump aA (j-1)) (bump aB i) (s + M (i-1) (j-1))
                  (by omega) (by omega) (by omega)
              refine ⟨?_, ?_, ?_⟩
              · rw [e, sumTo_bump aA (by omega : j - 1 ≤ n), sumTo_bump aB hi]
                have e1 : ((i-1 : ℕ) : ℤ) = (i:ℤ) - 1 := by omega
                have e2 : ((j-1 : ℕ) : ℤ) = (j:ℤ) - 1 := by omega
                rw [e1, e2]; ring
              · intro k; exact le_trans (bump_le aA (j-1) k) (mA k)
              · intro k; exact le_trans (bump_le aB i k) (mB k)

/-- Length of an assembled suffix: each position contributes its gaps plus
one slot, and the final boundary position contributes its gaps. -/
theorem assembleFrom_length (alm : ℕ → ℤ) :
    ∀ (L : List ℕ) (k : ℕ),
      (assembleFrom alm k L).length
        = L.length + ∑ t ∈ Finset.range (L.length + 1), (alm (k + t)).toNat := by
  intro L
  induction L with
  | nil => intro k; simp [assembleFrom]
  | cons a rest ih =>
      intro k
      simp only [assembleFrom, List.length_append, List.length_replicate, List.length_cons,
        ih (k+1)]
      rw [Finset.sum_range_succ' (fun t => (alm (k + t)).toNat)]
      have : ∀ t ∈ Finset.range (rest.length + 1),
          (alm (k + (t + 1))).toNat = (alm (k + 1 + t)).toNat := by
        intro t _
        have : k + (t + 1) = k + 1 + t := by omega
        rw [this]
      rw [Finset.sum_congr rfl this]
      simp only [Nat.add_zero]
      omega

/-- Length of an assembled output sequence. -/
theorem assemble_length (A : List ℕ) (alm : ℕ → ℤ) :
    (assemble A alm).length = A.length + ∑ t ∈ Finset.range (A.length + 1), (alm t).toNat := by
  unfold assemble
  rw [assembleFrom_length]
  simp

/-- Two assembled outputs have equal length when the gap arrays are
nonnegative and balance the integer length equation. -/
theorem assemble_length_eq {A B : List ℕ} {aA aB : ℕ → ℤ}
    (hA : ∀ k, 0 ≤ aA k) (hB : ∀ k, 0 ≤ aB k)
    (hs : (A.length : ℤ) + sumTo aA A.length = (B.length : ℤ) + sumTo aB B.length) :
    (assemble A aA).length = (assemble B aB).length := by
  have eA : ((∑ t ∈ Finset.range (A.length + 1), (aA t).toNat : ℕ) : ℤ) = sumTo aA A.length := by
    unfold sumTo
    push_cast
    exact Finset.sum_congr rfl fun t _ => Int.toNat_of_nonneg (hA t)
  have eB : ((∑ t ∈ Finset.range (B.length + 1), (aB t).toNat : ℕ) : ℤ) = sumTo aB B.length := by
    unfold sumTo
    push_cast
    exact Finset.sum_congr rfl fun t _ => Int.toNat_of_nonneg (hB t)
  have hz : (A.length : ℤ) + ((∑ t ∈ Finset.range (A.length + 1), (aA t).toNat : ℕ) : ℤ)
      = (B.length : ℤ) + ((∑ t ∈ Finset.range (B.length + 1), (aB t).toNat : ℕ) : ℤ) := by
    rw [eA, eB]; exact hs
  have hn : A.length + ∑ t ∈ Finset.range (A.length + 1), (aA t).toNat
      = B.length + ∑ t ∈ Finset.range (B.length + 1), (aB t).toNat := by exact_mod_cast hz
  rw [assemble_length, assemble_length]
  exact hn

/-! Traceback boundary facts of the kernels. -/

/-- Row 0 of the _global traceback is 2 away from the origin. -/
theorem globalTB_row (K : KIn) (j : ℕ) (h : 1 ≤ j) : (globalCell K 0 j).2 = 2 := by
  cases j with
  | zero => omega
  | succ t => rfl

/-- Column 0 of the _global traceback is 3 away from the origin. -/
theorem globalTB_col (K : KIn) (i : ℕ) (h : 1 ≤ i) : (globalCell K i 0).2 = 3 := by
  cases i with
  | zero => omega
  | succ t => rfl

/-- Row 0 of the _overlap traceback is 2 away from the origin. -/
theorem overlapTB_row (K : KIn) (j : ℕ) (h : 1 ≤ j) : (overlapCell K 0 j).2 = 2 := by
  cases j with
  | zero => omega
  | succ t => rfl

/-- Column 0 of the _overlap traceback is 3 away from the origin. -/
theorem overlapTB_col (K : KIn) (i : ℕ) (h : 1 ≤ i) : (overlapCell K i 0).2 = 3 := by
  cases i with
  | zero => omega
  | succ t => rfl

/-- Row 0 of the _repeats traceback is 2 away from the origin. -/
theorem repeatsTB_row (K : KIn) (j : ℕ) (h : 1 ≤ j) : (repeatsCell K 0 j).2 = 2 := by
  cases j with
  | zero => omega
  | succ t => rfl

/-- Column 0 of the _repeats traceback is 3 away from the origin. -/
theorem repeatsTB_col (K : KIn) (i : ℕ) (h : 1 ≤ i) : (repeatsCell K i 0).2 = 3 := by
  cases i with
  | zero => omega
  | succ t => rfl

/-- The winning diagonal length recorded by the _dialign fill at (i,j)
stays between 1 and min i j (for interior cells). -/
theorem dialignBest_len (K : KIn) (i j : ℕ) (h : 1 ≤ min i j) :
    1 ≤ (dialignBest K i j).2 ∧ (dialignBest K i j).2 ≤ min i j := by
  unfold dialignBest
  refine foldl_inv _ (fun p : ℚ × ℕ => 1 ≤ p.2 ∧ p.2 ≤ min i j) _ _ ⟨le_refl 1, h⟩ ?_
  intro s a ha hs
  have hk := List.mem_range.mp ha
  simp only
  split_ifs
  · exact ⟨by omega, by omega⟩
  · exact hs

/-- A single traceback write at an interior cell leaves the boundary
unchanged. -/
theorem update2_boundary {tb : ℕ → ℕ → ℕ} {i j v : ℕ} (hi : 1 ≤ i) (hj : 1 ≤ j)
    (a b : ℕ) (hab : a = 0 ∨ b = 0) : update2 tb i j v a b = tb a b := by
  unfold update2
  rw [if_neg]
  rintro ⟨rfl, rfl⟩
  omega

/-- Writing a diagonal of length at most min i j ending at an interior cell
leaves the boundary unchanged. -/
theorem diagWrite_boundary {tb : ℕ → ℕ → ℕ} {i j len : ℕ} (hi : 1 ≤ i) (hj : 1 ≤ j)
    (hlen : len ≤ min i j) (a b : ℕ) (hab : a = 0 ∨ b = 0) :
    diagWrite tb i j len a b = tb a b := by
  unfold diagWrite
  refine foldl_inv _ (fun t : ℕ → ℕ → ℕ => t a b = tb a b) _ _ rfl ?_
  intro t k hk ht
  have hkl := List.mem_range.mp hk
  rw [update2_boundary (by omega) (by omega) a b hab, ht]

/-- One fill step of the _dialign traceback leaves the boundary unchanged. -/
theorem dialignStep_boundary (K : KIn) (tb : ℕ → ℕ → ℕ) (p : ℕ × ℕ)
    (hp : 1 ≤ p.1 ∧ 1 ≤ p.2) (a b : ℕ) (hab : a = 0 ∨ b = 0) :
    dialignStep K tb p a b = tb a b := by
  unfold dialignStep
  split_ifs with h1 h2
  · exact update2_boundary hp.1 hp.2 a b hab
  · have hmin : 1 ≤ min p.1 p.2 := by omega
    exact diagWrite_boundary hp.1 hp.2 (dialignBest_len K p.1 p.2 hmin).2 a b hab
  · exact update2_boundary hp.1 hp.2 a b hab

/-- Cells in the fill scan list are interior. -/
theorem cellsOf_mem {lB lA : ℕ} {p : ℕ × ℕ} (h : p ∈ cellsOf lB lA) :
    1 ≤ p.1 ∧ 1 ≤ p.2 := by
  unfold cellsOf at h
  simp only [List.mem_flatMap, List.mem_map, List.mem_range] at h
  obtain ⟨i, _, j, _, rfl⟩ := h
  exact ⟨by omega, by omega⟩

/-- The finished _dialign traceback coincides with the initialization on the
boundary. -/
theorem dialignTB_boundary (K : KIn) (a b : ℕ) (hab : a = 0 ∨ b = 0) :
    dialignTB K a b = tb0 a b := by
  unfold dialignTB
  refine foldl_inv _ (fun t : ℕ → ℕ → ℕ => t a b = tb0 a b) _ _ rfl ?_
  intro t p hp ht
  rw [dialignStep_boundary K t p (cellsOf_mem hp) a b hab, ht]

/-- Row 0 of the finished _dialign traceback is 2 away from the origin. -/
theorem dialignTB_row (K : KIn) (j : ℕ) (h : 1 ≤ j) : dialignTB K 0 j = 2 := by
  rw [dialignTB_boundary K 0 j (Or.inl rfl)]
  unfold tb0
  rw [if_neg (by omega), if_pos rfl]

/-- Column 0 of the finished _dialign traceback is 3 away from the origin. -/
theorem dialignTB_col (K : KIn) (i : ℕ) (h : 1 ≤ i) : dialignTB K i 0 = 3 := by
  rw [dialignTB_boundary K i 0 (Or.inr rfl)]
  unfold tb0
  rw [if_neg (by omega), if_neg (by omega), if_pos rfl]

/-! Length agreement of the assembled outputs, per kernel family. -/

/-- Assembled outputs of a gwalk-based kernel have equal length whenever the
traceback boundary is standard. -/
theorem gwalk_assemble_len (A B : List ℕ) (tb : ℕ → ℕ → ℕ)
    (hrow : ∀ j, 1 ≤ j → j ≤ A.length → tb 0 j = 2)
    (hcol : ∀ i, 1 ≤ i → i ≤ B.length → tb i 0 = 3) :
    (assemble A (gwalk tb (B.length + A.length) B.length A.length
        (fun _ => 0) (fun _ => 0)).1).length
      = (assemble B (gwalk tb (B.length + A.length) B.length A.length
        (fun _ => 0) (fun _ => 0)).2).length := by
  obtain ⟨e, mA, mB⟩ := gwalk_spec tb B.length A.length hrow hcol
    (B.length + A.length) B.length A.length (fun _ => 0) (fun _ => 0)
    (le_refl _) (le_refl _) (le_refl _)
  rw [sumTo_zero, sumTo_zero] at e
  apply assemble_length_eq
  · intro k; exact le_trans (le_refl 0) (mA k)
  · intro k; exact le_trans (le_refl 0) (mB k)
  · omega

/-- Assembled outputs of the _repeats walk have equal length whenever the
traceback boundary is standard. -/
theorem rwalk_assemble_len (A B : List ℕ) (tb : ℕ → ℕ → ℕ) (M : ℕ → ℕ → ℚ) (s : ℚ)
    (hrow : ∀ j, 1 ≤ j → j ≤ A.length → tb 0 j = 2)
    (hcol : ∀ i, 1 ≤ i → i ≤ B.length → tb i 0 = 3) :
    (assemble A (rwalk tb M (B.length + A.length) B.length A.length
        (fun _ => 0) (fun _ => 0) s).1).length
      = (assemble B (rwalk tb M (B.length + A.length) B.length A.length
        (fun _ => 0) (fun _ => 0) s).2.1).length := by
  obtain ⟨e, mA, mB⟩ := rwalk_spec tb M B.length A.length hrow hcol
    (B.length + A.length) B.length A.length (fun _ => 0) (fun _ => 0) s
    (le_refl _) (le_refl _) (le_refl _)
  rw [sumTo_zero, sumTo_zero] at e
  apply assemble_length_eq
  · intro k; exact le_trans (le_refl 0) (mA k)
  · intro k; exact le_trans (le_refl 0) (mB k)
  · omega

/-- Dispatch value for mode "global". -/
theorem modeToKernel_global : modeToKernel "global" = some _global := by rfl

/-- Dispatch value for mode "local". -/
theorem modeToKernel_local : modeToKernel "local" = some _local := by rfl

/-- Dispatch value for mode "repeats". -/
theorem modeToKernel_repeats : modeToKernel "repeats" = some _repeats := by rfl

/-- Dispatch value for mode "overlap". -/
theorem modeToKernel_overlap : modeToKernel "overlap" = some _overlap := by rfl

/-- Dispatch value for mode "dialign". -/
theorem modeToKernel_dialign : modeToKernel "dialign" = some _dialign := by rfl

/-- C1 (amended): for the modes global, overlap, repeats and dialign, any
valid input yields two output sequences of equal length after assembly.
(The original claim included local mode, where the lengths can differ; see
the counterexample.) -/
theorem length_agreement (A B : List ℕ) (wA wB : List ℚ) (rA rB : List ℤ)
    (pA pB : List ℕ) (σ : ℕ → ℕ → ℚ) (scale sf : ℚ) (mode : String)
    (out : List OutSym × List OutSym × ℚ)
    (hmode : mode = "global" ∨ mode = "overlap" ∨ mode = "repeats" ∨ mode = "dialign")
    (hA : 1 ≤ A.length) (hB : 1 ≤ B.length)
    (hwA : wA.length = A.length) (hwB : wB.length = B.length)
    (hrA : rA.length = A.length) (hrB : rB.length = B.length)
    (hpA : pA.length = A.length) (hpB : pB.length = B.length)
    (hout : align_pairwise A B wA wB rA rB pA pB σ scale sf mode = some out) :
    out.1.length = out.2.1.length := by
  rcases hmode with rfl | rfl | rfl | rfl
  · unfold align_pairwise at hout
    rw [modeToKernel_global, Option.map_some'] at hout
    obtain rfl := (Option.some.injEq _ _).mp hout.symm
    simp only [alignCore, _global]
    exact gwalk_assemble_len A B _
      (fun j h1 _ => globalTB_row _ j h1) (fun i h1 _ => globalTB_col _ i h1)
  · unfold align_pairwise at hout
    rw [modeToKernel_overlap, Option.map_some'] at hout
    obtain rfl := (Option.some.injEq _ _).mp hout.symm
    simp only [alignCore, _overlap]
    exact gwalk_assemble_len A B _
      (fun j h1 _ => overlapTB_row _ j h1) (fun i h1 _ => overlapTB_col _ i h1)
  · unfold align_pairwise at hout
    rw [modeToKernel_repeats, Option.map_some'] at hout
    obtain rfl := (Option.some.injEq _ _).mp hout.symm
    simp only [alignCore, _repeats]
    exact rwalk_assemble_len A B _ _ _
      (fun j h1 _ => repeatsTB_row _ j h1) (fun i h1 _ => repeatsTB_col _ i h1)
  · unfold align_pairwise at hout
    rw [modeToKernel_dialign, Option.map_some'] at hout
    obtain rfl := (Option.some.injEq _ _).mp hout.symm
    simp only [alignCore, _dialign]
    exact gwalk_assemble_len A B _
      (fun j h1 _ => dialignTB_row _ j h1) (fun i h1 _ => dialignTB_col _ i h1)

/-- C1 (counterexample): in local mode a valid input can produce outputs of
different lengths, because the star-marked regions are not padded: aligning
A = [0,1] against B = [1] locally matches only the core [1], and outA keeps
its length 2 while outB has length 1. -/
theorem length_agreement_fails_local :
    align_pairwise [0,1] [1] [-5,-5] [-5] [0,0] [0] [7,7] [7]
        (fun a b => if a = 1 ∧ b = 1 then 1 else -1) 1 0 "local"
      = some ([OutSym.star, OutSym.sym 1], [OutSym.sym 1], 1)
    ∧ ([OutSym.star, OutSym.sym 1] : List OutSym).length
        ≠ ([OutSym.sym 1] : List OutSym).length := by
  constructor
  · with_unfolding_all rfl
  · decide

/-- C1 (witness): the amended length agreement applied to a concrete global
alignment. -/
theorem length_agreement_witness :
    (("global":String) = "global" ∨ ("global":String) = "overlap"
      ∨ ("global":String) = "repeats" ∨ ("global":String) = "dialign")
    ∧ (([OutSym.sym 0], [OutSym.sym 1], (5:ℚ)) :
        List OutSym × List OutSym × ℚ).1.length
        = (([OutSym.sym 0], [OutSym.sym 1], (5:ℚ)) :
        List OutSym × List OutSym × ℚ).2.1.length :=
  ⟨Or.inl rfl,
    length_agreement [0] [1] [-1] [-1] [0] [0] [7] [7] (fun _ _ => (5:ℚ)) 1 0 "global"
      ([OutSym.sym 0], [OutSym.sym 1], 5) (Or.inl rfl) (by decide) (by decide)
      (by decide) (by decide) (by decide) (by decide) (by decide) (by decide)
      (by with_unfolding_all rfl)⟩

/-- The fill scan list ends with the corner cell (lB, lA). -/
theorem cellsOf_concat (b a : ℕ) :
    ∃ pre, cellsOf (b+1) (a+1) = pre ++ [(b+1, a+1)] := by
  unfold cellsOf
  rw [List.range_succ, List.flatMap_append]
  have h1 : ([b] : List ℕ).flatMap (fun i => (List.range (a+1)).map fun j => (i+1, j+1))
      = (List.range (a+1)).map fun j => (b+1, j+1) := by simp
  rw [h1, List.range_succ, List.map_append]
  exact ⟨_ ++ _, by rw [List.append_assoc]; rfl⟩

/-- The matrix value of _local at the corner (lB, lA) is nonnegative: both
restriction predicates are false there (their j != lA and i != lB conjuncts
fail), so the null candidate stays 0 and every branch of the argmax chain
returns a value at least null. -/
theorem localCell_corner_nonneg (K : KIn) (ha : 1 ≤ K.lA) (hb : 1 ≤ K.lB) :
    0 ≤ (localCell K K.lB K.lA).1 := by
  obtain ⟨a, hae⟩ : ∃ a, K.lA = a + 1 := ⟨K.lA - 1, by omega⟩
  obtain ⟨b, hbe⟩ : ∃ b, K.lB = b + 1 := ⟨K.lB - 1, by omega⟩
  rw [hae, hbe]
  have hRA : ¬ RA K (b+1) (a+1) := fun h => h.2.2 hae.symm
  have hRB : ¬ RB K (b+1) (a+1) := fun h => h.2.2 hbe.symm
  have hor : ¬ (RA K (b+1) (a+1) ∨ RB K (b+1) (a+1)) := by tauto
  show 0 ≤ (localRowStep K (localRows K b) (b+1) (a+1)).1
  simp only [localRowStep, if_neg hor]
  split_ifs with h1 h2 h3
  · exact le_trans (le_refl 0) h1.2.2
  · exact le_trans (le_refl 0) h2.2
  · exact le_of_lt h3
  · exact le_refl 0

/-- The running maximum of _local satisfies: while no cell has been
recorded, the maximum score is still its initial 0. -/
theorem localBest_inv (K : KIn) (l : List (ℕ × ℕ)) (s : ℚ × Option (ℕ × ℕ))
    (hs : s.2 = none → s.1 = 0) :
    ((l.foldl (fun st p =>
        if (localCell K p.1 p.2).1 ≥ st.1 then ((localCell K p.1 p.2).1, some p) else st) s).2
          = none →
      (l.foldl (fun st p =>
        if (localCell K p.1 p.2).1 ≥ st.1 then ((localCell K p.1 p.2).1, some p) else st) s).1
          = 0) := by
  refine foldl_inv _ (fun st : ℚ × Option (ℕ × ℕ) => st.2 = none → st.1 = 0) _ _ hs ?_
  intro st p _ hst
  split_ifs
  · intro h; simp at h
  · exact hst

/-- C10: for every kernel input with lA, lB >= 1, the corner cell (lB, lA)
of the _local matrix is nonnegative (both restriction predicates are
vacuously false there and the null candidate stays 0), hence the running
maximum records some position: imax/jmax are assigned before the traceback
loop runs. -/
theorem local_argmax_assigned (K : KIn) (ha : 1 ≤ K.lA) (hb : 1 ≤ K.lB) :
    0 ≤ (localCell K K.lB K.lA).1 ∧ ((localBest K).2).isSome = true := by
  refine ⟨localCell_corner_nonneg K ha hb, ?_⟩
  obtain ⟨a, hae⟩ : ∃ a, K.lA = a + 1 := ⟨K.lA - 1, by omega⟩
  obtain ⟨b, hbe⟩ : ∃ b, K.lB = b + 1 := ⟨K.lB - 1, by omega⟩
  have hnn := localCell_corner_nonneg K ha hb
  rw [hae, hbe] at hnn
  unfold localBest
  rw [hae, hbe]
  obtain ⟨pre, hpre⟩ := cellsOf_concat b a
  rw [hpre, List.foldl_append]
  have hinv := localBest_inv K pre ((0 : ℚ), (none : Option (ℕ × ℕ))) (fun _ => rfl)
  simp only [List.foldl_cons, List.foldl_nil]
  split_ifs with h
  · rfl
  · rcases he : (List.foldl (fun st p =>
        if (localCell K p.1 p.2).1 ≥ st.1 then ((localCell K p.1 p.2).1, some p) else st)
        ((0 : ℚ), (none : Option (ℕ × ℕ))) pre).2 with _ | v
    · exfalso; apply h; rw [hinv he]; exact hnn
    · rw [he]; rfl

/-- Kernel input used by concrete witnesses. -/
def Kex : KIn := ⟨[0], 1, [0], 1, fun _ _ => 0, 1⟩

/-- C10 (witness): the corner fact and the assignment of the running
maximum on a concrete 1 x 1 input. -/
theorem local_argmax_assigned_witness :
    1 ≤ Kex.lA ∧ (0 ≤ (localCell Kex Kex.lB Kex.lA).1 ∧ ((localBest Kex).2).isSome = true) :=
  ⟨by decide, local_argmax_assigned Kex (by decide) (by decide)⟩

/-- C5: in the global kernel, every interior cell value and traceback are
computed exactly by the documented recurrence: gapA is the penalized,
extension-scaled or plain vertical gap cost, gapB its horizontal mirror,
match the diagonal value plus the scorer entry, and the cell takes gapA with
traceback 3 iff gapA > match and gapA >= gapB, else match with traceback 1
iff match >= gapB, else gapB with traceback 2. -/
theorem global_recurrence (K : KIn) (i j : ℕ)
    (hi1 : 1 ≤ i) (hi2 : i ≤ K.lB) (hj1 : 1 ≤ j) (hj2 : j ≤ K.lA) :
    globalCell K i j =
      (let gapA :=
        if K.resB.getD (i-1) 0 < 0 ∧ K.resA.getD (j-1) 0 > 0 ∧ j ≠ K.lA
        then (globalCell K (i-1) j).1 - 1000000
        else if (globalCell K (i-1) j).2 = 3
        then (globalCell K (i-1) j).1 + K.S i 0 * K.scale
        else (globalCell K (i-1) j).1 + K.S i 0
      let gapB :=
        if K.resA.getD (j-1) 0 < 0 ∧ K.resB.getD (i-1) 0 > 0 ∧ i ≠ K.lB
        then (globalCell K i (j-1)).1 - 1000000
        else if (globalCell K i (j-1)).2 = 2
        then (globalCell K i (j-1)).1 + K.S 0 j * K.scale
        else (globalCell K i (j-1)).1 + K.S 0 j
      let mtch := (globalCell K (i-1) (j-1)).1 + K.S i j
      if gapA > mtch ∧ gapA ≥ gapB then (gapA, 3)
      else if mtch ≥ gapB then (mtch, 1)
      else (gapB, 2)) := by
  obtain ⟨b, rfl⟩ : ∃ b, i = b + 1 := ⟨i - 1, by omega⟩
  obtain ⟨a, rfl⟩ : ∃ a, j = a + 1 := ⟨j - 1, by omega⟩
  rfl

/-- C5 (witness): the recurrence at the interior cell (1,1) of a concrete
kernel input. -/
theorem global_recurrence_witness :
    1 ≤ Kex.lB ∧ globalCell Kex 1 1 =
      (let gapA :=
        if Kex.resB.getD 0 0 < 0 ∧ Kex.resA.getD 0 0 > 0 ∧ 1 ≠ Kex.lA
        then (globalCell Kex 0 1).1 - 1000000
        else if (globalCell Kex 0 1).2 = 3
        then (globalCell Kex 0 1).1 + Kex.S 1 0 * Kex.scale
        else (globalCell Kex 0 1).1 + Kex.S 1 0
      let gapB :=
        if Kex.resA.getD 0 0 < 0 ∧ Kex.resB.getD 0 0 > 0 ∧ 1 ≠ Kex.lB
        then (globalCell Kex 1 0).1 - 1000000
        else if (globalCell Kex 1 0).2 = 2
        then (globalCell Kex 1 0).1 + Kex.S 0 1 * Kex.scale
        else (globalCell Kex 1 0).1 + Kex.S 0 1
      let mtch := (globalCell Kex 0 0).1 + Kex.S 1 1
      if gapA > mtch ∧ gapA ≥ gapB then (gapA, 3)
      else if mtch ≥ gapB then (mtch, 1)
      else (gapB, 2)) :=
  ⟨by decide, global_recurrence Kex 1 1 (by decide) (by decide) (by decide) (by decide)⟩

/-- C6: in the overlap kernel, the gapA candidate of every last-column cell
(j = lA) is the bare value of the cell above, and the gapB candidate of
every last-row cell (i = lB) is the bare value of the cell to the left: no
gap cost, no extension scaling and no restriction penalty applies to
trailing gaps. -/
theorem overlap_trailing_free (K : KIn) (i j : ℕ)
    (hi1 : 1 ≤ i) (hi2 : i ≤ K.lB) (hj1 : 1 ≤ j) (hj2 : j ≤ K.lA) :
    overlapGapA K i K.lA (overlapCell K (i-1) K.lA) = (overlapCell K (i-1) K.lA).1
    ∧ overlapGapB K K.lB j (overlapCell K K.lB (j-1)) = (overlapCell K K.lB (j-1)).1 := by
  constructor
  · unfold overlapGapA
    rw [if_neg (fun h => h.2.2 rfl), if_pos rfl]
  · unfold overlapGapB
    rw [if_neg (fun h => h.2.2 rfl), if_pos rfl]

/-- C6 (witness): the free trailing gap candidates on a concrete input. -/
theorem overlap_trailing_free_witness :
    1 ≤ Kex.lB ∧
      (overlapGapA Kex 1 Kex.lA (overlapCell Kex 0 Kex.lA) = (overlapCell Kex 0 Kex.lA).1
      ∧ overlapGapB Kex Kex.lB 1 (overlapCell Kex Kex.lB 0) = (overlapCell Kex Kex.lB 0).1) :=
  ⟨by decide, overlap_trailing_free Kex 1 1 (by decide) (by decide) (by decide) (by decide)⟩

/-- C2 (amended): a restricted gap placement is not absolutely forbidden;
instead every kernel subtracts the 1000000 sentinel from the corresponding
candidate (gapA/scoreA under the gapA restriction, gapB/scoreB under the
gapB restriction), which penalizes but cannot always prevent the gap. -/
theorem restriction_penalty (K : KIn) (i j : ℕ) (up left : ℚ × ℕ) (uq lq : ℚ) :
    (RA K i j → gapACand K i j up = up.1 - 1000000
      ∧ overlapGapA K i j up = up.1 - 1000000
      ∧ dialignScoreA K i j uq = uq - 1000000)
    ∧ (RB K i j → gapBCand K i j left = left.1 - 1000000
      ∧ overlapGapB K i j left = left.1 - 1000000
      ∧ dialignScoreB K i j lq = lq - 1000000) := by
  constructor
  · intro h
    refine ⟨?_, ?_, ?_⟩
    · unfold gapACand; rw [if_pos h]
    · unfold overlapGapA; rw [if_pos h]
    · unfold dialignScoreA; rw [if_pos h]
  · intro h
    refine ⟨?_, ?_, ?_⟩
    · unfold gapBCand; rw [if_pos h]
    · unfold overlapGapB; rw [if_pos h]
    · unfold dialignScoreB; rw [if_pos h]

/-- Kernel input with the gapA restriction active at cell (1,1). -/
def KresA : KIn := ⟨[1, 0], 2, [-1], 1, fun _ _ => 0, 1⟩

/-- Kernel input with the gapB restriction active at cell (1,1). -/
def KresB : KIn := ⟨[-1], 1, [1, 0], 2, fun _ _ => 0, 1⟩

/-- C2 (witness): the penalty equations at concrete restricted cells. -/
theorem restriction_penalty_witness :
    (gapACand KresA 1 1 (0, 0) = ((0, 0) : ℚ × ℕ).1 - 1000000
      ∧ overlapGapA KresA 1 1 (0, 0) = ((0, 0) : ℚ × ℕ).1 - 1000000
      ∧ dialignScoreA KresA 1 1 0 = 0 - 1000000)
    ∧ (gapBCand KresB 1 1 (0, 0) = ((0, 0) : ℚ × ℕ).1 - 1000000
      ∧ overlapGapB KresB 1 1 (0, 0) = ((0, 0) : ℚ × ℕ).1 - 1000000
      ∧ dialignScoreB KresB 1 1 0 = 0 - 1000000) :=
  ⟨(restriction_penalty KresA 1 1 (0, 0) (0, 0) 0 0).1 (by decide),
   (restriction_penalty KresB 1 1 (0, 0) (0, 0) 0 0).2 (by decide)⟩

/-- C2 (counterexample): with large-magnitude scores the global kernel does
place a gap in outB directly opposite the A-position carrying a negative
restriction, even though a positive restriction sits at a non-final position
of B: the -1000000 penalty is outweighed when all other candidates are even
worse.  Here A = [0] with resA = [-1], B = [1,2] with resB = [1,0], and the
returned alignment is outA = [-, 0, -], outB = [1, -, 2] with the gap
outB[1] opposite the restricted symbol of A. -/
theorem restriction_violated :
    ¬ restrictionHonored [0] [1,2] [0] [-2000000, 2000000] [-1] [1,0] [7] [8,8]
        (fun _ b => if b = 1 then -1500000 else 0) 0 0 "global" := by
  intro h
  have h1 := (h ([OutSym.gap, OutSym.sym 0, OutSym.gap],
      [OutSym.sym 1, OutSym.gap, OutSym.sym 2], 1000000) (by with_unfolding_all rfl)).1
      0 0 1 (by decide) (by decide) (by decide) (by decide)
  exact h1 (by decide)

/-- C3: behavior of the _repeats traceback at a 0-cell reached mid-walk.
Because of the stray statement if(traceback[l][k] == 1); in the source, the
backward scan stops at its very first candidate (i-1, j-1) regardless of
that cell's traceback value; on this input the jumped-to cell (1,1) has
traceback 0, not 1, one gap is recorded on each side per jump, and the
(zero) matrix values of the jumped-to cells are added to sim. -/
theorem repeats_skip_behavior :
    align_pairwise [0,1] [0,1] [-1,-1] [-1,-1] [0,0] [0,0] [7,7] [7,7]
        (fun _ _ => -1) 1 0 "repeats"
      = some ([OutSym.gap, OutSym.sym 0, OutSym.gap, OutSym.sym 1],
              [OutSym.sym 0, OutSym.gap, OutSym.sym 1, OutSym.gap], 0)
    ∧ (repeatsCell ⟨[0,0], 2, [0,0], 2,
        mkScorer [0,1] [0,1] [-1,-1] [-1,-1] [7,7] [7,7] (fun _ _ => -1) 0, 1⟩ 1 1).2 = 0 := by
  constructor
  · with_unfolding_all rfl
  · with_unfolding_all rfl

/-- Similarity mapping that is not symmetric: 5 on the key (0,1), else 0. -/
def exScore : ℕ → ℕ → ℚ := fun a b => if a = 0 ∧ b = 1 then 5 else 0

/-- C4: the single-pair driver and the explicit-pairs driver look the
similarity mapping up in key order (A-symbol, B-symbol), while the all-pairs
driver uses the reversed order (B-symbol, A-symbol); consequently, on a
non-symmetric mapping the all-pairs driver returns a different result for
the same pair (similarity 0 instead of 5). -/
theorem driver_key_order :
    (∀ (A B : List ℕ) (wA wB : List ℚ) (rA rB : List ℤ) (pA pB : List ℕ)
        (σ : ℕ → ℕ → ℚ) (scale sf : ℚ) (mode : String),
      align_pairwise A B wA wB rA rB pA pB σ scale sf mode
        = (modeToKernel mode).map fun kern =>
            alignCore kern A B wA wB rA rB pA pB (fun a b => σ a b) scale sf)
    ∧ (∀ (seqs : List (List ℕ × List ℕ)) (weights : List (List ℚ × List ℚ))
        (restrictions : List (List ℤ × List ℤ)) (prosodics : List (List ℕ × List ℕ))
        (σ : ℕ → ℕ → ℚ) (scale sf : ℚ) (mode : String),
      align_sequence_pairs seqs weights restrictions prosodics σ scale sf mode
        = (modeToKernel mode).map fun kern =>
            (List.range seqs.length).map fun i =>
              alignCore kern (seqs.getD i default).1 (seqs.getD i default).2
                (weights.getD i default).1 (weights.getD i default).2
                (restrictions.getD i default).1 (restrictions.getD i default).2
                (prosodics.getD i default).1 (prosodics.getD i default).2
                (fun a b => σ a b) scale sf)
    ∧ (∀ (seqs : List (List ℕ)) (weights : List (List ℚ))
        (restrictions : List (List ℤ)) (prosodics : List (List ℕ))
        (σ : ℕ → ℕ → ℚ) (scale sf : ℚ) (mode : String),
      align_sequences_pairwise seqs weights restrictions prosodics σ scale sf mode
        = (modeToKernel mode).map fun kern =>
            (List.range seqs.length).flatMap fun i =>
              (List.range seqs.length).filterMap fun j =>
                if i < j then
                  some (alignCore kern (seqs.getD i []) (seqs.getD j [])
                    (weights.getD i []) (weights.getD j [])
                    (restrictions.getD i []) (restrictions.getD j [])
                    (prosodics.getD i []) (prosodics.getD j [])
                    (fun a b => σ b a) scale sf)
                else none)
    ∧ (align_sequences_pairwise [[0],[1]] [[-1],[-1]] [[0],[0]] [[7],[7]] exScore 1 0 "global"
        = some [([OutSym.sym 0], [OutSym.sym 1], 0)]
      ∧ align_pairwise [0] [1] [-1] [-1] [0] [0] [7] [7] exScore 1 0 "global"
        = some ([OutSym.sym 0], [OutSym.sym 1], 5)
      ∧ ((0:ℚ) ≠ 5)) := by
  refine ⟨fun _ _ _ _ _ _ _ _ _ _ _ _ => rfl,
    fun _ _ _ _ _ _ _ _ => rfl,
    fun _ _ _ _ _ _ _ _ => rfl, ?_, ?_, ?_⟩
  · with_unfolding_all rfl
  · with_unfolding_all rfl
  · decide

/-- C8: the mode dispatch recognizes exactly the five kernel names; any
other string selects no kernel (in the source the function pointer stays
uninitialized and the subsequent call is undefined behavior, not a reported
error). -/
theorem unknown_mode_no_kernel : modeToKernel "needleman" = none := by rfl

/-- The comparison chain of edit_dist computes the minimum of the three
candidates: the interior recurrence of the Levenshtein matrix. -/
theorem lev_rec (A B : List ℕ) (i j : ℕ) :
    levM A B (i+1) (j+1)
      = min (levM A B i (j+1) + 1)
          (min (levM A B (i+1) j + 1)
            (levM A B i j + (if A.getD j 0 = B.getD i 0 then 0 else 1))) := by
  have h : levM A B (i+1) (j+1) =
      (if levM A B i (j+1) + 1 ≤ levM A B i j + (if A.getD j 0 = B.getD i 0 then 0 else 1)
          ∧ levM A B i (j+1) + 1 ≤ levM A B (i+1) j + 1
        then levM A B i (j+1) + 1
        else if levM A B i j + (if A.getD j 0 = B.getD i 0 then 0 else 1)
            < levM A B (i+1) j + 1
        then levM A B i j + (if A.getD j 0 = B.getD i 0 then 0 else 1)
        else levM A B (i+1) j + 1) := rfl
  rw [h]
  split_ifs <;> omega

/-- Diagonal entries of the self-distance matrix vanish. -/
theorem lev_self (A : List ℕ) : ∀ k, levM A A k k = 0 := by
  intro k
  induction k with
  | zero => rfl
  | succ k ih => rw [lev_rec, ih, if_pos rfl]; omega

/-- The Levenshtein matrix is symmetric under swapping the sequences and
transposing the indices. -/
theorem lev_symm (A B : List ℕ) : ∀ n i j, i + j ≤ n → levM A B i j = levM B A j i := by
  intro n
  induction n with
  | zero =>
      intro i j h
      have hi : i = 0 := by omega
      have hj : j = 0 := by omega
      subst hi; subst hj; rfl
  | succ n ih =>
      intro i j h
      cases i with
      | zero =>
          cases j with
          | zero => rfl
          | succ a => rfl
      | succ b =>
          cases j with
          | zero => rfl
          | succ a =>
              rw [lev_rec, lev_rec]
              rw [ih b (a+1) (by omega), ih (b+1) a (by omega), ih b a (by omega)]
              have hpen : (if A.getD a 0 = B.getD b 0 then 0 else 1)
                  = (if B.getD b 0 = A.getD a 0 then 0 else 1) := by
                simp [eq_comm]
              rw [hpen]
              omega

/-- Every entry of the Levenshtein matrix is at most the larger index. -/
theorem lev_le_max (A B : List ℕ) : ∀ n i j, i + j ≤ n → levM A B i j ≤ max i j := by
  intro n
  induction n with
  | zero =>
      intro i j h
      have hi : i = 0 := by omega
      have hj : j = 0 := by omega
      subst hi; subst hj
      exact le_refl _
  | succ n ih =>
      intro i j h
      cases i with
      | zero =>
          cases j with
          | zero => exact le_refl _
          | succ a => show a + 1 ≤ max 0 (a+1); omega
      | succ b =>
          cases j with
          | zero => show b + 1 ≤ max (b+1) 0; omega
          | succ a =>
              rw [lev_rec]
              have h1 := ih b a (by omega)
              have h2 : (if A.getD a 0 = B.getD b 0 then 0 else 1) ≤ 1 := by
                split_ifs <;> omega
              omega

/-- C7: for nonempty sequences, edit_dist vanishes on equal inputs, is
symmetric, and lies in the interval [0, 1]. -/
theorem edit_dist_laws (A B : List ℕ) (hA : A ≠ []) (hB : B ≠ []) :
    edit_dist A A = 0 ∧ edit_dist A B = edit_dist B A
      ∧ 0 ≤ edit_dist A B ∧ edit_dist A B ≤ 1 := by
  have hB1 : 1 ≤ B.length := List.length_pos.mpr hB
  have hBq : (0:ℚ) < (B.length : ℚ) := by exact_mod_cast hB1
  have hmax : (0:ℚ) < max (B.length : ℚ) (A.length : ℚ) := lt_max_of_lt_left hBq
  refine ⟨?_, ?_, ?_, ?_⟩
  · unfold edit_dist
    rw [lev_self A A.length]
    simp
  · unfold edit_dist
    rw [lev_symm A B (B.length + A.length) B.length A.length (le_refl _),
      max_comm (B.length : ℚ) (A.length : ℚ)]
  · unfold edit_dist
    apply div_nonneg
    · exact_mod_cast Nat.zero_le _
    · exact le_of_lt hmax
  · unfold edit_dist
    rw [div_le_one hmax]
    have h := lev_le_max A B (B.length + A.length) B.length A.length (le_refl _)
    have hcast : ((levM A B B.length A.length : ℕ) : ℚ) ≤ ((max B.length A.length : ℕ) : ℚ) := by
      exact_mod_cast h
    rw [Nat.cast_max] at hcast
    exact hcast

/-- C7 (witness): the laws applied to the concrete sequences [1] and [2]. -/
theorem edit_dist_laws_witness :
    ([1] : List ℕ) ≠ [] ∧ (edit_dist [1] [1] = 0 ∧ edit_dist [1] [2] = edit_dist [2] [1]
      ∧ 0 ≤ edit_dist [1] [2] ∧ edit_dist [1] [2] ≤ 1) :=
  ⟨by decide, edit_dist_laws [1] [2] (by decide) (by decide)⟩

example : edit_dist [1,2,3] [1,5,3] = 1/3 := by with_unfolding_all rfl

example : align_pairwise [0] [1] [-1] [-1] [0] [0] [7] [7]
    (fun a b => if a = 0 ∧ b = 1 then 5 else 0) 1 0 "global"
    = some ([OutSym.sym 0], [OutSym.sym 1], 5) := by with_unfolding_all rfl
